import Mathlib

/-!
Verification development for the noma Markdown normalizer
(src/normalizeMarkdown.ts and its CLI wrapper).

The core under verification is the recursive normalization pass:
a parse step, a tree walk that reformats the content of fenced code
blocks tagged as Markdown through a non-recursive base formatter, and
a render step sharing one style configuration.  Parsing and rendering
are third-party library collaborators (remark-parse / remark-stringify),
so the development is parameterized over them; their assumed properties
(round-tripping, deterministic style-respecting stringification) appear
as explicit hypotheses exactly where a claim depends on them.
-/

namespace Noma

/-- The listItemIndent option values accepted by remark-stringify. -/
inductive ListItemIndent where
  | one
  | tab
  | mixed
deriving DecidableEq

/-- Style Configuration: the remark-stringify options record shared by the
base processor and the full processor (stringifyOptions in the source). -/
structure Config where
  bullet : Char
  listItemIndent : ListItemIndent
  tightDefinitions : Bool
  rule : Char
deriving DecidableEq

/-- The shared stringifyOptions constant from src/normalizeMarkdown.ts:
bullet hyphen, indent one, tight definitions, rule hyphen. -/
def stringifyOptions : Config :=
  { bullet := '-'
    listItemIndent := ListItemIndent.one
    tightDefinitions := true
    rule := '-' }

/-- A JavaScript throwable as observed by the catch clause: an Error
carries a message string, any other thrown value carries none. -/
structure JsErr where
  message : Option String
deriving DecidableEq

/-- The message extraction of the catch clause in remarkRecursiveFormat:
the message of an Error instance, otherwise the fallback marker. -/
def errMessage (e : JsErr) : String :=
  match e.message with
  | some m => m
  | none => "Unknown error"

mutual

/-- A node of the mdast document tree.  A code node keeps the fields the
transform reads and writes: optional language tag, optional meta string,
and literal content.  Every other construct is abstracted as a leaf with
a kind and value (text, html, inlineCode, ...) or an interior node with a
kind and children (list, blockquote, heading, ...). -/
inductive MNode where
  | code (lang : Option String) (infoMeta : Option String) (value : String) : MNode
  | leaf (kind : String) (value : String) : MNode
  | parent (kind : String) (children : MForest) : MNode

/-- An ordered sequence of sibling nodes (the children list of a parent). -/
inductive MForest where
  | nil : MForest
  | cons (n : MNode) (rest : MForest) : MForest

end

/-- The mdast Root node: it owns the ordered top-level children. -/
structure Root where
  children : MForest

/-- Removal of leading and trailing whitespace from a character list. -/
def trimChars (l : List Char) : List Char :=
  ((l.dropWhile Char.isWhitespace).reverse.dropWhile Char.isWhitespace).reverse

/-- The JavaScript String.prototype.trim operation: strips whitespace
from both ends of the string. -/
def jsTrim (s : String) : String := String.mk (trimChars s.data)

/-- The JavaScript String.prototype.toLowerCase operation restricted to
the character-wise lowering relevant to ASCII language tags. -/
def jsToLower (s : String) : String := String.mk (s.data.map Char.toLower)

/-- The eligibility test of remarkRecursiveFormat, exactly as in the
source: the language tag strictly equals markdown or md, and the value
is truthy, i.e. a non-empty string. -/
def isFormatTarget (lang : Option String) (value : String) : Bool :=
  (lang == some ("markdown") || lang == some ("md")) && value != ""

/-- The body of the code-node visitor: when the node is a format target,
run the base formatter on its value; on success replace the value by the
trimmed output, on failure keep the value and emit the diagnostic line
written by console.error.  Returns the new value and the diagnostics. -/
def formatCode (base : String → Except JsErr String) (lang : Option String)
    (value : String) : String × List String :=
  if isFormatTarget lang value then
    match base value with
    | Except.ok s => (jsTrim s, [])
    | Except.error e =>
        (value, ["Failed to process nested markdown: " ++ errMessage e])
  else
    (value, [])

mutual

/-- The tree walk of unist-util-visit restricted to one node: code nodes
are rewritten in place via formatCode, other nodes recurse into their
children.  Diagnostics are collected in document order. -/
def visitN (base : String → Except JsErr String) : MNode → MNode × List String
  | MNode.code lang infoMeta value =>
      let r := formatCode base lang value
      (MNode.code lang infoMeta r.1, r.2)
  | MNode.leaf kind value => (MNode.leaf kind value, [])
  | MNode.parent kind children =>
      let r := visitF base children
      (MNode.parent kind r.1, r.2)

/-- The tree walk over a sibling sequence. -/
def visitF (base : String → Except JsErr String) : MForest → MForest × List String
  | MForest.nil => (MForest.nil, [])
  | MForest.cons n rest =>
      let a := visitN base n
      let b := visitF base rest
      (MForest.cons a.1 b.1, a.2 ++ b.2)

end

/-- The remarkRecursiveFormat transformer applied to a whole document. -/
def visitRoot (base : String → Except JsErr String) (t : Root) :
    Root × List String :=
  let r := visitF base t.children
  (⟨r.1⟩, r.2)

/-- The baseProcessor of the source: parse then stringify with the shared
stringifyOptions, no code-block rewriting; processSync surfaces a parse
failure as an exception, modelled as the error branch. -/
def baseProcess (P : String → Except JsErr Root) (R : Config → Root → String)
    (v : String) : Except JsErr String :=
  (P v).map (R stringifyOptions)

/-- Modelled from the spec: the Base Formatter is the non-recursive
parse-then-render pass under the shared Style Configuration, containing
no code-block rewriting step.  Kept as a separate definition so that the
inner pass used by the transform can be compared against it. -/
def specBaseFormatter (P : String → Except JsErr Root)
    (R : Config → Root → String) (v : String) : Except JsErr String :=
  (P v).map (R stringifyOptions)

/-- normalizeMarkdown from the source: the empty string short-circuits,
otherwise parse, run remarkRecursiveFormat with the base processor, and
stringify with the shared options.  A top-level parse failure propagates
as the call error. -/
def normalizeMarkdown (P : String → Except JsErr Root)
    (R : Config → Root → String) (t : String) : Except JsErr String :=
  if t = "" then Except.ok ("")
  else
    (P t).map (fun tree =>
      R stringifyOptions (visitRoot (baseProcess P R) tree).1)

/-- normalizeMarkdown with the diagnostic channel made explicit: the
console.error stream is threaded as a list of lines, appended to by the
nested-failure handler and never read by the computation. -/
def normalizeWithLog (log : List String) (P : String → Except JsErr Root)
    (R : Config → Root → String) (t : String) :
    Except JsErr String × List String :=
  if t = "" then (Except.ok (""), log)
  else
    match P t with
    | Except.error e => (Except.error e, log)
    | Except.ok tree =>
        let r := visitRoot (baseProcess P R) tree
        (Except.ok (R stringifyOptions r.1), log ++ r.2)

/-- Occurrence of a code node with the given language tag and value
somewhere in a sibling sequence, at any nesting depth. -/
inductive CodeIn (lang : Option String) (value : String) : MForest → Prop where
  | hereHead (infoMeta : Option String) (rest : MForest) :
      CodeIn lang value (MForest.cons (MNode.code lang infoMeta value) rest)
  | inHead (kind : String) (inner : MForest) (rest : MForest) :
      CodeIn lang value inner →
      CodeIn lang value (MForest.cons (MNode.parent kind inner) rest)
  | tail (n : MNode) (rest : MForest) :
      CodeIn lang value rest → CodeIn lang value (MForest.cons n rest)

/-- Modelled from the claim wording, for comparison with the source test:
case-insensitive membership of the language tag in the markdown family,
together with non-empty content. -/
def eligibleCaseInsensitive (lang : Option String) (value : String) : Bool :=
  (lang.map jsToLower == some ("markdown") ||
    lang.map jsToLower == some ("md")) && value != ""

/-- The action taken on an eligible code value: trimmed formatter output
on success, original value plus one diagnostic line on failure. -/
def applyInner (base : String → Except JsErr String) (v : String) :
    String × List String :=
  match base v with
  | Except.ok s => (jsTrim s, [])
  | Except.error e =>
      (v, ["Failed to process nested markdown: " ++ errMessage e])

theorem format_target_iff (l : Option String) (v : String) :
    isFormatTarget l v = true ↔
      ((l = some ("markdown") ∨ l = some ("md")) ∧ v ≠ "") := by
  simp [isFormatTarget]

theorem normalizeWithLog_fst (log : List String)
    (P : String → Except JsErr Root) (R : Config → Root → String)
    (t : String) :
    (normalizeWithLog log P R t).1 = normalizeMarkdown P R t := by
  by_cases ht : t = ""
  · simp [normalizeWithLog, normalizeMarkdown, ht]
  · cases h : P t <;> simp [normalizeWithLog, normalizeMarkdown, ht, h, Except.map]

/-- C3: normalize applied to the empty string returns the empty string.
The parser is quantified over all possible parse functions, including
those that fail or misbehave on the empty string, so the result holds
before and regardless of any parser invocation. -/
theorem c3_empty_input :
    ∀ (P : String → Except JsErr Root) (R : Config → Root → String),
      normalizeMarkdown P R ("") = Except.ok ("") := by
  intro P R
  simp [normalizeMarkdown]

/-- C4: the inner formatting pass applied to an eligible block content is
exactly the non-recursive Base Formatter: it coincides with the formatter
modelled from the spec wording, and whenever the parse of the nested
content succeeds with some tree, the pass returns that tree rendered
directly under the shared Style Configuration, with no code-block
rewriting applied to it — so a markdown-tagged fence inside the content
is rendered as literal text and not re-normalized. -/
theorem c4_inner_pass (P : String → Except JsErr Root)
    (R : Config → Root → String) :
    (∀ v, baseProcess P R v = specBaseFormatter P R v) ∧
    (∀ v tree, P v = Except.ok tree →
      baseProcess P R v = Except.ok (R stringifyOptions tree)) := by
  constructor
  · intro v
    rfl
  · intro v tree h
    simp [baseProcess, h, Except.map]

theorem c4_inner_pass_witness :
    baseProcess (fun _ => Except.ok ⟨MForest.nil⟩) (fun _ _ => "out") ("abc")
      = Except.ok ("out") :=
  (c4_inner_pass (fun _ => Except.ok ⟨MForest.nil⟩) (fun _ _ => "out")).2
    "abc" ⟨MForest.nil⟩ rfl

/-- C2, corrected: a code node is rewritten by the nested formatting pass
exactly when its language tag equals markdown or md under a
case-sensitive comparison and its content is non-empty; all other code
blocks, including differently-cased tags such as MD, are left untouched
with no diagnostic. -/
theorem c2_eligibility :
    ∀ (base : String → Except JsErr String) (l : Option String)
      (m : Option String) (v : String),
      visitN base (MNode.code l m v) =
        if (l = some ("markdown") ∨ l = some ("md")) ∧ v ≠ "" then
          (MNode.code l m (applyInner base v).1, (applyInner base v).2)
        else
          (MNode.code l m v, []) := by
  intro base l m v
  by_cases h : (l = some ("markdown") ∨ l = some ("md")) ∧ v ≠ ""
  · rw [if_pos h]
    have hb : isFormatTarget l v = true := (format_target_iff l v).mpr h
    cases hv : base v <;>
      simp [visitN, formatCode, applyInner, hb, hv]
  · rw [if_neg h]
    have hb : isFormatTarget l v = false := by
      rcases Bool.eq_false_or_eq_true (isFormatTarget l v) with htr | hf
      · exact absurd ((format_target_iff l v).mp htr) h
      · exact hf
    simp [visitN, formatCode, hb]

/-- C2, counterexample to the claim as stated: the tag MD is eligible
under the claimed case-insensitive test, with non-empty content, yet the
pass leaves the node byte-identical and emits nothing, even though the
base formatter would have produced a different content. -/
theorem c2_counterexample :
    eligibleCaseInsensitive (some ("MD")) ("* x") = true ∧
    visitN (fun _ => Except.ok ("- x")) (MNode.code (some ("MD")) none ("* x"))
      = (MNode.code (some ("MD")) none ("* x"), []) ∧
    jsTrim ("- x") ≠ ("* x" : String) := by
  refine ⟨by decide, ?_, by decide⟩
  simp [visitN, formatCode, isFormatTarget]

/-- C9: normalize is deterministic and free of cross-call interference.
With the diagnostic channel modelled as explicit threaded state — the
only state shared between calls — the result of a call is independent of
the state left by earlier calls: a call issued after another returns
exactly what it returns in isolation, and every call returns the pure
function of its own input, so any interleaving of independent calls
yields the sequential results byte for byte. -/
theorem c9_no_interference :
    ∀ (P : String → Except JsErr Root) (R : Config → Root → String)
      (log log₂ : List String) (t u : String),
      (normalizeWithLog log P R t).1 = (normalizeWithLog log₂ P R t).1 ∧
      (normalizeWithLog (normalizeWithLog log P R t).2 P R u).1
        = (normalizeWithLog log₂ P R u).1 ∧
      (normalizeWithLog log P R t).1 = normalizeMarkdown P R t := by
  intro P R log log₂ t u
  refine ⟨?_, ?_, normalizeWithLog_fst log P R t⟩
  · rw [normalizeWithLog_fst, normalizeWithLog_fst]
  · rw [normalizeWithLog_fst, normalizeWithLog_fst]

theorem head?_dropWhile_false (p : Char → Bool) :
    ∀ (l : List Char) (c : Char), (l.dropWhile p).head? = some c → p c = false := by
  intro l
  induction l with
  | nil => intro c h; simp [List.dropWhile] at h
  | cons a as ih =>
      intro c h
      by_cases hp : p a
      · rw [List.dropWhile_cons_of_pos hp] at h
        exact ih c h
      · rw [List.dropWhile_cons_of_neg hp] at h
        simp at h
        rw [h] at hp
        exact Bool.eq_false_iff.mpr hp

theorem getLast?_dropWhile_of_some (p : Char → Bool) :
    ∀ (l : List Char) (c : Char), (l.dropWhile p).getLast? = some c →
      l.getLast? = some c := by
  intro l
  induction l with
  | nil => intro c h; simp [List.dropWhile] at h
  | cons a as ih =>
      intro c h
      by_cases hp : p a
      · rw [List.dropWhile_cons_of_pos hp] at h
        have has := ih c h
        cases as with
        | nil => simp at has
        | cons b bs => rw [List.getLast?_cons_cons]; exact has
      · rw [List.dropWhile_cons_of_neg hp] at h
        exact h

theorem jsTrim_getLast_not_ws (s : String) (c : Char)
    (h : (jsTrim s).data.getLast? = some c) : c.isWhitespace = false := by
  have hd : (jsTrim s).data
      = (((s.data.dropWhile Char.isWhitespace).reverse.dropWhile
          Char.isWhitespace)).reverse := rfl
  rw [hd, List.getLast?_reverse] at h
  exact head?_dropWhile_false Char.isWhitespace _ c h

theorem jsTrim_head_not_ws (s : String) (c : Char)
    (h : (jsTrim s).data.head? = some c) : c.isWhitespace = false := by
  have hd : (jsTrim s).data
      = (((s.data.dropWhile Char.isWhitespace).reverse.dropWhile
          Char.isWhitespace)).reverse := rfl
  rw [hd, List.head?_reverse] at h
  have h2 := getLast?_dropWhile_of_some Char.isWhitespace _ c h
  rw [List.getLast?_reverse] at h2
  exact head?_dropWhile_false Char.isWhitespace _ c h2

theorem visitF_code_mapped (base : String → Except JsErr String)
    {l : Option String} {v : String} :
    ∀ {cs : MForest}, CodeIn l v cs →
      CodeIn l (formatCode base l v).1 (visitF base cs).1 := by
  intro cs hc
  induction hc with
  | hereHead m rest =>
      simp only [visitF, visitN]
      exact CodeIn.hereHead m _
  | inHead k inner rest hin ih =>
      simp only [visitF, visitN]
      exact CodeIn.inHead k _ _ ih
  | tail n rest hrest ih =>
      simp only [visitF]
      exact CodeIn.tail _ _ ih

theorem visitF_diag_mem (base : String → Except JsErr String)
    {l : Option String} {v : String} :
    ∀ {cs : MForest}, CodeIn l v cs →
      ∀ d ∈ (formatCode base l v).2, d ∈ (visitF base cs).2 := by
  intro cs hc
  induction hc with
  | hereHead m rest =>
      intro d hd
      simp only [visitF, visitN]
      exact List.mem_append_left _ hd
  | inHead k inner rest hin ih =>
      intro d hd
      simp only [visitF, visitN]
      exact List.mem_append_left _ (ih d hd)
  | tail n rest hrest ih =>
      intro d hd
      simp only [visitF]
      exact List.mem_append_right _ (ih d hd)

/-- C1: a nested parse failure is isolated.  When the parsed tree of a
non-empty input contains an eligible markdown-tagged code block whose
content fails the inner parse-render pass, normalize still returns a
successful result, the block keeps its original content byte for byte in
the transformed document, and the error channel receives the diagnostic
line carrying the underlying message, where a failure with no message is
reported with the Unknown error marker; the nested failure never becomes
the overall call's error. -/
theorem c1_error_isolation (P : String → Except JsErr Root)
    (R : Config → Root → String) (log : List String) (t : String)
    (tree : Root) (l : Option String) (v : String) (e : JsErr)
    (ht : t ≠ "") (hp : P t = Except.ok tree)
    (hc : CodeIn l v tree.children)
    (helig : isFormatTarget l v = true)
    (he : baseProcess P R v = Except.error e) :
    (∃ out, normalizeMarkdown P R t = Except.ok out) ∧
    CodeIn l v (visitRoot (baseProcess P R) tree).1.children ∧
    ("Failed to process nested markdown: " ++ errMessage e)
      ∈ (normalizeWithLog log P R t).2 ∧
    (e.message = none →
      ("Failed to process nested markdown: " ++ "Unknown error")
        ∈ (normalizeWithLog log P R t).2) := by
  have hv : (formatCode (baseProcess P R) l v).1 = v := by
    simp [formatCode, helig, he]
  have hdiag : ("Failed to process nested markdown: " ++ errMessage e)
      ∈ (formatCode (baseProcess P R) l v).2 := by
    simp [formatCode, helig, he]
  have hpres := visitF_code_mapped (baseProcess P R) hc
  rw [hv] at hpres
  have hmem := visitF_diag_mem (baseProcess P R) hc _ hdiag
  have hlog : (normalizeWithLog log P R t).2
      = log ++ (visitF (baseProcess P R) tree.children).2 := by
    simp [normalizeWithLog, ht, hp, visitRoot]
  refine ⟨⟨R stringifyOptions (visitRoot (baseProcess P R) tree).1, ?_⟩,
    hpres, ?_, ?_⟩
  · simp [normalizeMarkdown, ht, hp, Except.map]
  · rw [hlog]
    exact List.mem_append_right _ hmem
  · intro hnone
    have : errMessage e = "Unknown error" := by simp [errMessage, hnone]
    rw [hlog]
    rw [← this]
    exact List.mem_append_right _ hmem

theorem c1_error_isolation_witness :
    (∃ out,
      normalizeMarkdown
        (fun s => if s = "doc" then
            Except.ok ⟨MForest.cons
              (MNode.code (some ("markdown")) none ("* [broken(")) MForest.nil⟩
          else Except.error ⟨some ("boom")⟩)
        (fun _ _ => "- a\n") ("doc") = Except.ok out) ∧
    CodeIn (some ("markdown")) ("* [broken(")
      (visitRoot
        (baseProcess
          (fun s => if s = "doc" then
              Except.ok ⟨MForest.cons
                (MNode.code (some ("markdown")) none ("* [broken(")) MForest.nil⟩
            else Except.error ⟨some ("boom")⟩)
          (fun _ _ => "- a\n"))
        ⟨MForest.cons
          (MNode.code (some ("markdown")) none ("* [broken(")) MForest.nil⟩).1.children ∧
    ("Failed to process nested markdown: " ++ errMessage ⟨some ("boom")⟩)
      ∈ (normalizeWithLog []
          (fun s => if s = "doc" then
              Except.ok ⟨MForest.cons
                (MNode.code (some ("markdown")) none ("* [broken(")) MForest.nil⟩
            else Except.error ⟨some ("boom")⟩)
          (fun _ _ => "- a\n") ("doc")).2 ∧
    ((⟨some ("boom")⟩ : JsErr).message = none →
      ("Failed to process nested markdown: " ++ "Unknown error")
        ∈ (normalizeWithLog []
            (fun s => if s = "doc" then
                Except.ok ⟨MForest.cons
                  (MNode.code (some ("markdown")) none ("* [broken(")) MForest.nil⟩
              else Except.error ⟨some ("boom")⟩)
            (fun _ _ => "- a\n") ("doc")).2) :=
  c1_error_isolation _ _ [] "doc" _ (some ("markdown")) ("* [broken(")
    ⟨some ("boom")⟩ (by decide) (by simp) (CodeIn.hereHead none MForest.nil)
    (by decide) (by simp [baseProcess, Except.map])

/-- C5: on a successful inner reformat of an eligible block, the node's
content is replaced by the formatter output with surrounding whitespace
trimmed — in particular no trailing whitespace or blank line remains —
while the language tag and every other field of the node are preserved,
and the rewritten node occurs in the transformed tree. -/
theorem c5_success_rewrite (base : String → Except JsErr String)
    (cs : MForest) (l m : Option String) (v s : String)
    (helig : isFormatTarget l v = true) (hs : base v = Except.ok s)
    (hc : CodeIn l v cs) :
    visitN base (MNode.code l m v) = (MNode.code l m (jsTrim s), []) ∧
    CodeIn l (jsTrim s) (visitF base cs).1 ∧
    (∀ c, (jsTrim s).data.getLast? = some c → c.isWhitespace = false) := by
  have hv : (formatCode base l v).1 = jsTrim s := by
    simp [formatCode, helig, hs]
  refine ⟨?_, ?_, fun c hcw => jsTrim_getLast_not_ws s c hcw⟩
  · simp [visitN, formatCode, helig, hs]
  · have := visitF_code_mapped base hc
    rw [hv] at this
    exact this

theorem c5_success_rewrite_witness :
    visitN (fun _ => Except.ok ("# H\n\n- a\n"))
        (MNode.code (some ("markdown")) none ("# H\n\n* a"))
      = (MNode.code (some ("markdown")) none ("# H\n\n- a"), []) := by
  have h := c5_success_rewrite (fun _ => Except.ok ("# H\n\n- a\n"))
    (MForest.cons (MNode.code (some ("markdown")) none ("# H\n\n* a")) MForest.nil)
    (some ("markdown")) none ("# H\n\n* a") ("# H\n\n- a\n")
    (by decide) rfl (CodeIn.hereHead none MForest.nil)
  have ht : jsTrim ("# H\n\n- a\n") = "# H\n\n- a" := by decide
  rw [h.1, ht]

/-- C10: the replacement written into a successfully reformatted block is
the formatter output trimmed on both ends, because the source uses the
two-sided trim operation; in particular the replacement never begins with
a whitespace character, so leading whitespace is stripped beyond the
trailing-only trimming the spec states. -/
theorem c10_trim_both_ends (base : String → Except JsErr String)
    (l m : Option String) (v s : String)
    (helig : isFormatTarget l v = true) (hs : base v = Except.ok s) :
    (visitN base (MNode.code l m v)).1 = MNode.code l m (jsTrim s) ∧
    (∀ c, (jsTrim s).data.head? = some c → c.isWhitespace = false) := by
  refine ⟨?_, fun c hcw => jsTrim_head_not_ws s c hcw⟩
  simp [visitN, formatCode, helig, hs]

theorem c10_trim_both_ends_witness :
    (visitN (fun _ => Except.ok ("\n  # H")) (MNode.code (some ("md")) none ("y"))).1
      = MNode.code (some ("md")) none ("# H") := by
  have h := c10_trim_both_ends (fun _ => Except.ok ("\n  # H"))
    (some ("md")) none ("y") ("\n  # H") (by decide) rfl
  have ht : jsTrim ("\n  # H") = "# H" := by decide
  rw [h.1, ht]

mutual

/-- Concatenation of the literal content of every code node of a node, in
document order: a concrete renderer used to witness the fidelity
hypothesis that rendered output embeds code content verbatim. -/
def codeTextN : MNode → String
  | MNode.code _ _ v => v
  | MNode.leaf _ _ => ""
  | MNode.parent _ cs => codeTextF cs

/-- Concatenation of the literal content of every code node of a sibling
sequence. -/
def codeTextF : MForest → String
  | MForest.nil => ""
  | MForest.cons n rest => codeTextN n ++ codeTextF rest

end

theorem codeTextF_contains {l : Option String} {v : String} :
    ∀ {cs : MForest}, CodeIn l v cs →
      ∃ a b, codeTextF cs = a ++ v ++ b := by
  intro cs hc
  induction hc with
  | hereHead m rest =>
      refine ⟨"", codeTextF rest, ?_⟩
      simp [codeTextF, codeTextN]
  | inHead k inner rest hin ih =>
      obtain ⟨a, b, hab⟩ := ih
      refine ⟨a, b ++ codeTextF rest, ?_⟩
      simp [codeTextF, codeTextN, hab, String.append_assoc]
  | tail n rest hrest ih =>
      obtain ⟨a, b, hab⟩ := ih
      refine ⟨codeTextN n ++ a, b, ?_⟩
      simp [codeTextF, hab, String.append_assoc]

/-- C6: frame property for non-markdown code fences.  Any code block
whose language tag is not exactly markdown or md is left untouched by the
transform — it survives in the transformed tree with its content byte for
byte — and, for any renderer that embeds code content verbatim in its
output, that content appears byte for byte in the successful result of
normalize, regardless of how Markdown-like the content is. -/
theorem c6_frame (P : String → Except JsErr Root)
    (R : Config → Root → String)
    (hfid : ∀ (tr : Root) (l : Option String) (w : String),
      CodeIn l w tr.children →
      ∃ a b, R stringifyOptions tr = a ++ w ++ b)
    (t : String) (tree : Root) (l : Option String) (v : String)
    (ht : t ≠ "") (hp : P t = Except.ok tree)
    (hc : CodeIn l v tree.children)
    (hl1 : l ≠ some ("markdown")) (hl2 : l ≠ some ("md")) :
    CodeIn l v (visitRoot (baseProcess P R) tree).1.children ∧
    (∃ a b, normalizeMarkdown P R t = Except.ok (a ++ v ++ b)) := by
  have helig : isFormatTarget l v = false := by
    simp [isFormatTarget]
    intro h
    rcases h with h | h
    · exact absurd h hl1
    · exact absurd h hl2
  have hv : (formatCode (baseProcess P R) l v).1 = v := by
    simp [formatCode, helig]
  have hpres := visitF_code_mapped (baseProcess P R) hc
  rw [hv] at hpres
  have hpres' : CodeIn l v (visitRoot (baseProcess P R) tree).1.children := by
    simpa [visitRoot] using hpres
  refine ⟨hpres', ?_⟩
  obtain ⟨a, b, hab⟩ := hfid _ l v hpres'
  refine ⟨a, b, ?_⟩
  simp [normalizeMarkdown, ht, hp, Except.map, hab]

theorem c6_frame_witness :
    CodeIn (some ("python")) ("## x")
      (visitRoot
        (baseProcess
          (fun s => if s = "doc2" then
              Except.ok ⟨MForest.cons
                (MNode.code (some ("python")) none ("## x")) MForest.nil⟩
            else Except.error ⟨none⟩)
          (fun _ tr => codeTextF tr.children))
        ⟨MForest.cons
          (MNode.code (some ("python")) none ("## x")) MForest.nil⟩).1.children ∧
    (∃ a b,
      normalizeMarkdown
        (fun s => if s = "doc2" then
            Except.ok ⟨MForest.cons
              (MNode.code (some ("python")) none ("## x")) MForest.nil⟩
          else Except.error ⟨none⟩)
        (fun _ tr => codeTextF tr.children) ("doc2")
        = Except.ok (a ++ "## x" ++ b)) :=
  c6_frame _ _
    (fun tr l w hw => codeTextF_contains hw)
    "doc2" _ (some ("python")) ("## x")
    (by decide) (by simp) (CodeIn.hereHead none MForest.nil)
    (by decide) (by decide)

/-- Stability of a base formatter at a content value: when the formatter
succeeds and its trimmed output is non-empty, running it again on that
trimmed output succeeds and trims to the same string.  This is the
canonical-form assumption the spec places on the parse-render library. -/
def Stab (base : String → Except JsErr String) (v : String) : Prop :=
  ∀ s, base v = Except.ok s → jsTrim s ≠ "" →
    ∃ s', base (jsTrim s) = Except.ok s' ∧ jsTrim s' = jsTrim s

theorem formatCode_stable (base : String → Except JsErr String)
    (l : Option String) (v : String)
    (hst : isFormatTarget l v = true → Stab base v) :
    (formatCode base l ((formatCode base l v).1)).1 = (formatCode base l v).1 := by
  by_cases helig : isFormatTarget l v = true
  · cases hb : base v with
    | error e =>
        have h1 : (formatCode base l v).1 = v := by simp [formatCode, helig, hb]
        rw [h1]
        exact h1
    | ok s =>
        have h1 : (formatCode base l v).1 = jsTrim s := by
          simp [formatCode, helig, hb]
        rw [h1]
        by_cases hz : jsTrim s = ""
        · rw [hz]
          simp [formatCode, isFormatTarget]
        · obtain ⟨s', hb', ht'⟩ := hst helig s hb hz
          have helig' : isFormatTarget l (jsTrim s) = true := by
            simp [isFormatTarget] at helig ⊢
            exact ⟨helig.1, hz⟩
          simp [formatCode, helig', hb', ht']
  · have helig' : isFormatTarget l v = false :=
      Bool.eq_false_iff.mpr helig
    have h1 : (formatCode base l v).1 = v := by simp [formatCode, helig']
    rw [h1]
    exact h1

theorem codeIn_singleton_mono (l : Option String) (v : String) (n : MNode)
    (rest : MForest) (h : CodeIn l v (MForest.cons n MForest.nil)) :
    CodeIn l v (MForest.cons n rest) := by
  cases h with
  | hereHead m r => exact CodeIn.hereHead m rest
  | inHead k inner r hin => exact CodeIn.inHead k inner rest hin
  | tail n r htl => cases htl

mutual

theorem visitN_stable (base : String → Except JsErr String) (n : MNode)
    (H : ∀ l v, CodeIn l v (MForest.cons n MForest.nil) →
      isFormatTarget l v = true → Stab base v) :
    (visitN base (visitN base n).1).1 = (visitN base n).1 := by
  cases n with
  | code l m v =>
      have h1 : (visitN base (MNode.code l m v)).1
          = MNode.code l m ((formatCode base l v).1) := by simp [visitN]
      rw [h1]
      have h2 : (visitN base (MNode.code l m ((formatCode base l v).1))).1
          = MNode.code l m ((formatCode base l ((formatCode base l v).1)).1) := by
        simp [visitN]
      rw [h2]
      have h3 := formatCode_stable base l v
        (fun htgt => H l v (CodeIn.hereHead m MForest.nil) htgt)
      rw [h3]
  | leaf k v => simp [visitN]
  | parent k cs =>
      have h1 : (visitN base (MNode.parent k cs)).1
          = MNode.parent k ((visitF base cs).1) := by simp [visitN]
      rw [h1]
      have h2 : (visitN base (MNode.parent k ((visitF base cs).1))).1
          = MNode.parent k ((visitF base ((visitF base cs).1)).1) := by
        simp [visitN]
      rw [h2]
      have h3 := visitF_stable base cs
        (fun l v hc htgt => H l v (CodeIn.inHead k cs MForest.nil hc) htgt)
      rw [h3]

theorem visitF_stable (base : String → Except JsErr String) (cs : MForest)
    (H : ∀ l v, CodeIn l v cs → isFormatTarget l v = true → Stab base v) :
    (visitF base (visitF base cs).1).1 = (visitF base cs).1 := by
  cases cs with
  | nil => simp [visitF]
  | cons n rest =>
      have h1 : (visitF base (MForest.cons n rest)).1
          = MForest.cons ((visitN base n).1) ((visitF base rest).1) := by
        simp [visitF]
      rw [h1]
      have h2 : (visitF base (MForest.cons ((visitN base n).1) ((visitF base rest).1))).1
          = MForest.cons ((visitN base ((visitN base n).1)).1)
              ((visitF base ((visitF base rest).1)).1) := by
        simp [visitF]
      rw [h2]
      have hn := visitN_stable base n
        (fun l v hc htgt => H l v (codeIn_singleton_mono l v n rest hc) htgt)
      have hr := visitF_stable base rest
        (fun l v hc htgt => H l v (CodeIn.tail n rest hc) htgt)
      rw [hn, hr]

end

/-- C7: normalize is idempotent.  For an input whose parse succeeds, where
reparsing the rendered canonical output recovers the transformed tree and
the inner formatter is stable on the formatted block contents — the
round-trip and determinism guarantees the spec assumes of the parse and
render library — applying normalize to the output of normalize returns
that output unchanged. -/
theorem c7_idempotent (P : String → Except JsErr Root)
    (R : Config → Root → String) (t : String) (tree : Root)
    (hp : t ≠ "" → P t = Except.ok tree)
    (hrt : P (R stringifyOptions (visitRoot (baseProcess P R) tree).1)
        = Except.ok ((visitRoot (baseProcess P R) tree).1))
    (hstab : ∀ l v, CodeIn l v tree.children → isFormatTarget l v = true →
      Stab (baseProcess P R) v) :
    ∀ out, normalizeMarkdown P R t = Except.ok out →
      normalizeMarkdown P R out = Except.ok out := by
  intro out hout
  by_cases ht : t = ""
  · rw [ht] at hout
    simp [normalizeMarkdown] at hout
    rw [← hout]
    simp [normalizeMarkdown]
  · have hp2 := hp ht
    simp [normalizeMarkdown, ht, hp2, Except.map] at hout
    by_cases ho : out = ""
    · rw [ho]
      simp [normalizeMarkdown]
    · rw [← hout] at ho ⊢
      simp [normalizeMarkdown, ho, hrt, Except.map]
      have hst := visitF_stable (baseProcess P R) tree.children hstab
      simp [visitRoot]
      rw [hst]

theorem c7_idempotent_witness :
    normalizeMarkdown
      (fun s => if s = "* a" ∨ s = "- a\n" then
          Except.ok ⟨MForest.cons (MNode.leaf ("text") ("a")) MForest.nil⟩
        else Except.error ⟨none⟩)
      (fun _ _ => "- a\n") ("- a\n") = Except.ok ("- a\n") :=
  c7_idempotent
    (fun s => if s = "* a" ∨ s = "- a\n" then
        Except.ok ⟨MForest.cons (MNode.leaf ("text") ("a")) MForest.nil⟩
      else Except.error ⟨none⟩)
    (fun _ _ => "- a\n") ("* a")
    ⟨MForest.cons (MNode.leaf ("text") ("a")) MForest.nil⟩
    (fun _ => rfl) rfl
    (by
      intro l v hc htgt
      cases hc with
      | tail n rest h => cases h)
    ("- a\n") rfl

/-- Splitting a character list at newline characters, in document order;
the empty document yields one empty line, matching splitOn behavior. -/
def splitLines : List Char → List (List Char)
  | [] => [[]]
  | c :: cs =>
      match splitLines cs with
      | [] => [[]]
      | first :: more =>
          if c = '\n' then [] :: first :: more else (c :: first) :: more

/-- The lines of a rendered document. -/
def linesOf (s : String) : List String := (splitLines s.data).map String.mk

/-- The list bullet marker of a line, when the line starts (after space
indentation) with a star, plus or hyphen marker followed by a space. -/
def bulletMarker (li : String) : Option Char :=
  let r := li.data.dropWhile (fun c => c == ' ')
  if List.isPrefixOf (['*', ' ']) r then some ('*')
  else if List.isPrefixOf (['+', ' ']) r then some ('+')
  else if List.isPrefixOf (['-', ' ']) r then some ('-')
  else none

/-- Recognizer for a rendered thematic break line: at least three
characters, all of them the same rule marker candidate. -/
def ruleLine (li : String) : Bool :=
  decide (3 ≤ li.data.length) &&
    (li.data.all (fun c => c == '*') || li.data.all (fun c => c == '-') ||
      li.data.all (fun c => c == '_'))

/-- A line respects the Style Configuration when any bullet marker it
carries is the configured bullet and, if it is a thematic break line, it
is exactly the configured rule marker repeated three times. -/
def styleOkLine (cfg : Config) (li : String) : Bool :=
  (match bulletMarker li with
   | some c => c == cfg.bullet
   | none => true) &&
  (!(ruleLine li) || li == String.mk (List.replicate 3 cfg.rule))

/-- A rendered document respects the Style Configuration when every one
of its lines does; this is the stringification guarantee the spec assumes
of the renderer under a given configuration. -/
def respectsStyle (cfg : Config) (out : String) : Bool :=
  (linesOf out).all (fun li => styleOkLine cfg li)

/-- C8: style invariants of the output.  For any renderer whose output
respects the shared Style Configuration — whose bullet is the hyphen and
whose rule marker is the hyphen, as fixed by stringifyOptions in the
source — every successful result of normalize has no line whose list
bullet marker is a star or a plus, every bullet marker that occurs is the
hyphen followed by a space, and every thematic break line is exactly
three hyphens. -/
theorem c8_style_invariants (P : String → Except JsErr Root)
    (R : Config → Root → String)
    (HR : ∀ tr : Root,
      respectsStyle stringifyOptions (R stringifyOptions tr) = true)
    (t out : String) (h : normalizeMarkdown P R t = Except.ok out) :
    ∀ li ∈ linesOf out,
      bulletMarker li ≠ some ('*') ∧ bulletMarker li ≠ some ('+') ∧
      (∀ c, bulletMarker li = some c → c = '-') ∧
      (ruleLine li = true → li = "---") := by
  have hstyle : respectsStyle stringifyOptions out = true := by
    by_cases ht : t = ""
    · rw [ht] at h
      simp [normalizeMarkdown] at h
      rw [← h]
      decide
    · cases hP : P t with
      | error e => simp [normalizeMarkdown, ht, hP, Except.map] at h
      | ok tree =>
          simp [normalizeMarkdown, ht, hP, Except.map] at h
          rw [← h]
          exact HR _
  intro li hli
  have hline : styleOkLine stringifyOptions li = true :=
    List.all_eq_true.mp hstyle li hli
  rw [styleOkLine, Bool.and_eq_true] at hline
  obtain ⟨h1, h2⟩ := hline
  have hbul : ∀ c, bulletMarker li = some c → c = '-' := by
    intro c hc
    rw [hc] at h1
    have : c = stringifyOptions.bullet := by
      exact beq_iff_eq.mp h1
    rw [this]
    rfl
  refine ⟨?_, ?_, hbul, ?_⟩
  · intro hstar
    have := hbul '*' hstar
    simp at this
  · intro hplus
    have := hbul '+' hplus
    simp at this
  · intro hrl
    rw [hrl] at h2
    simp at h2
    rw [h2]
    decide

theorem c8_style_invariants_witness :
    bulletMarker ("- a") ≠ some ('*') ∧ bulletMarker ("- a") ≠ some ('+') :=
  ((c8_style_invariants
    (fun s => if s = "* a" then
        Except.ok ⟨MForest.cons (MNode.leaf ("text") ("a")) MForest.nil⟩
      else Except.error ⟨none⟩)
    (fun _ _ => "- a\n")
    (by
      intro tr
      show respectsStyle stringifyOptions ("- a\n") = true
      decide)
    ("* a") ("- a\n") rfl ("- a") (by decide)).imp id (fun h => h.1))

end Noma
